import Mathlib

/-!
Verification of three one-shot text-refactoring scripts:
a Scanner (extract_handlers.py), an Extractor (extract_full_handlers.py)
and a Rewriter (update_message_router.py).  File contents are modelled as
`List Char`, a file's line list as `List (List Char)` (each entry one line;
for the scripts that use `readlines`, each entry keeps its trailing newline
exactly as Python produces it).
-/

set_option maxRecDepth 100000

namespace Refactor

/-- Convert a Lean string literal to the character-list representation. -/
def s2l (s : String) : List Char := s.data

/-- The opening curly brace character. -/
def braceOpen : Char := '\x7b'

/-- The closing curly brace character. -/
def braceClose : Char := '\x7d'

/-- Python whitespace as recognised by `str.strip` and the regex class. -/
def pyIsSpace (c : Char) : Bool :=
  c = ' ' || c = '\t' || c = '\n' || c = '\r' || c = '\x0b' || c = '\x0c'

/-- Python `str.strip()`: drop whitespace from both ends. -/
def pyStrip (s : List Char) : List Char :=
  ((s.dropWhile pyIsSpace).reverse.dropWhile pyIsSpace).reverse

/-- Python `str.split(sep)` for a single-character separator, here `:`. -/
def splitCols : List Char → List (List Char)
  | [] => [[]]
  | c :: rest =>
    match splitCols rest with
    | [] => [[c]]
    | g :: gs => if c = ':' then [] :: g :: gs else (c :: g) :: gs

/-- Python `str.replace(pat, rep)`, fuelled so that it evaluates by
structural recursion (the scan drops at least one character per step, so
`fuel = s.length` through the wrapper below makes the fuel irrelevant):
replace every non-overlapping occurrence of `pat`, scanning left to right.
(All patterns used by the scripts are non-empty; on an empty pattern this
model is the identity.) -/
def replaceAllF (pat rep : List Char) : Nat → List Char → List Char
  | _, [] => []
  | 0, s => s
  | fuel + 1, c :: rest =>
    if pat ≠ [] ∧ pat.isPrefixOf (c :: rest) then
      rep ++ replaceAllF pat rep fuel ((c :: rest).drop pat.length)
    else
      c :: replaceAllF pat rep fuel rest

/-- Python `str.replace(pat, rep)`. -/
def replaceAll (pat rep s : List Char) : List Char :=
  replaceAllF pat rep s.length s

/-- Count of non-overlapping occurrences of `pat`, scanning left to right
(the occurrences that `replaceAll` replaces), fuelled likewise. -/
def countOccF (pat : List Char) : Nat → List Char → Nat
  | _, [] => 0
  | 0, _ => 0
  | fuel + 1, c :: rest =>
    if pat ≠ [] ∧ pat.isPrefixOf (c :: rest) then
      1 + countOccF pat fuel ((c :: rest).drop pat.length)
    else
      countOccF pat fuel rest

/-- Count of non-overlapping occurrences of `pat` in `s`. -/
def countOcc (pat s : List Char) : Nat :=
  countOccF pat s.length s

theorem prefix_drop_length_le {pat c rest : List Char}
    (hp : pat ≠ [] ∧ pat.isPrefixOf c) (hc : c.length = rest.length + 1) :
    (c.drop pat.length).length ≤ rest.length := by
  have hlen : pat.length ≤ c.length :=
    (List.isPrefixOf_iff_prefix.mp hp.2).length_le
  have hpos : 0 < pat.length := List.length_pos.mpr hp.1
  simp only [List.length_drop]
  omega

theorem replaceAllF_fuel (pat rep : List Char) :
    ∀ (f1 f2 : Nat) (s : List Char), s.length ≤ f1 → s.length ≤ f2 →
      replaceAllF pat rep f1 s = replaceAllF pat rep f2 s := by
  intro f1
  induction f1 with
  | zero =>
    intro f2 s h1 _
    have : s = [] := List.length_eq_zero.mp (Nat.le_zero.mp h1)
    subst this
    cases f2 <;> rfl
  | succ f ih =>
    intro f2 s h1 h2
    cases s with
    | nil => cases f2 <;> rfl
    | cons c rest =>
      cases f2 with
      | zero => simp at h2
      | succ f2' =>
        simp only [replaceAllF]
        simp only [List.length_cons] at h1 h2
        by_cases hp : pat ≠ [] ∧ pat.isPrefixOf (c :: rest)
        · rw [if_pos hp, if_pos hp,
            ih f2' ((c :: rest).drop pat.length)
              (le_trans (prefix_drop_length_le hp rfl) (by omega))
              (le_trans (prefix_drop_length_le hp rfl) (by omega))]
        · rw [if_neg hp, if_neg hp, ih f2' rest (by omega) (by omega)]

theorem countOccF_fuel (pat : List Char) :
    ∀ (f1 f2 : Nat) (s : List Char), s.length ≤ f1 → s.length ≤ f2 →
      countOccF pat f1 s = countOccF pat f2 s := by
  intro f1
  induction f1 with
  | zero =>
    intro f2 s h1 _
    have : s = [] := List.length_eq_zero.mp (Nat.le_zero.mp h1)
    subst this
    cases f2 <;> rfl
  | succ f ih =>
    intro f2 s h1 h2
    cases s with
    | nil => cases f2 <;> rfl
    | cons c rest =>
      cases f2 with
      | zero => simp at h2
      | succ f2' =>
        simp only [countOccF]
        simp only [List.length_cons] at h1 h2
        by_cases hp : pat ≠ [] ∧ pat.isPrefixOf (c :: rest)
        · rw [if_pos hp, if_pos hp,
            ih f2' ((c :: rest).drop pat.length)
              (le_trans (prefix_drop_length_le hp rfl) (by omega))
              (le_trans (prefix_drop_length_le hp rfl) (by omega))]
        · rw [if_neg hp, if_neg hp, ih f2' rest (by omega) (by omega)]

theorem replaceAll_cons (pat rep : List Char) (c : Char) (rest : List Char) :
    replaceAll pat rep (c :: rest)
      = if pat ≠ [] ∧ pat.isPrefixOf (c :: rest) then
          rep ++ replaceAll pat rep ((c :: rest).drop pat.length)
        else
          c :: replaceAll pat rep rest := by
  unfold replaceAll
  show replaceAllF pat rep (rest.length + 1) (c :: rest) = _
  simp only [replaceAllF]
  by_cases hp : pat ≠ [] ∧ pat.isPrefixOf (c :: rest)
  · rw [if_pos hp, if_pos hp,
      replaceAllF_fuel pat rep rest.length ((c :: rest).drop pat.length).length
        ((c :: rest).drop pat.length) (prefix_drop_length_le hp rfl) (le_refl _)]
  · rw [if_neg hp, if_neg hp]

theorem countOcc_cons (pat : List Char) (c : Char) (rest : List Char) :
    countOcc pat (c :: rest)
      = if pat ≠ [] ∧ pat.isPrefixOf (c :: rest) then
          1 + countOcc pat ((c :: rest).drop pat.length)
        else
          countOcc pat rest := by
  unfold countOcc
  show countOccF pat (rest.length + 1) (c :: rest) = _
  simp only [countOccF]
  by_cases hp : pat ≠ [] ∧ pat.isPrefixOf (c :: rest)
  · rw [if_pos hp, if_pos hp,
      countOccF_fuel pat rest.length ((c :: rest).drop pat.length).length
        ((c :: rest).drop pat.length) (prefix_drop_length_le hp rfl) (le_refl _)]
  · rw [if_neg hp, if_neg hp]

theorem replaceAll_nil (pat rep : List Char) : replaceAll pat rep [] = [] := rfl

theorem countOcc_zero_id (pat rep : List Char) :
    ∀ s : List Char, countOcc pat s = 0 → replaceAll pat rep s = s := by
  intro s
  generalize hn : s.length = n
  induction n using Nat.strong_induction_on generalizing s with
  | _ n ih =>
    match s with
    | [] => intro _; rfl
    | c :: rest =>
      intro h0
      by_cases hp : pat ≠ [] ∧ pat.isPrefixOf (c :: rest)
      · rw [countOcc_cons, if_pos hp] at h0
        omega
      · rw [countOcc_cons, if_neg hp] at h0
        rw [replaceAll_cons, if_neg hp]
        have hlt : rest.length < n := by
          simp only [List.length_cons] at hn; omega
        rw [ih rest.length hlt rest rfl h0]

theorem countOcc_one_decomp (pat rep : List Char) :
    ∀ s : List Char, countOcc pat s = 1 →
      ∃ p q, s = p ++ pat ++ q ∧ countOcc pat q = 0 ∧
        replaceAll pat rep s = p ++ rep ++ q := by
  intro s
  generalize hn : s.length = n
  induction n using Nat.strong_induction_on generalizing s with
  | _ n ih =>
    match s with
    | [] => intro h0; simp [countOcc, countOccF] at h0
    | c :: rest =>
      intro h1
      by_cases hp : pat ≠ [] ∧ pat.isPrefixOf (c :: rest)
      · rw [countOcc_cons, if_pos hp] at h1
        have hq0 : countOcc pat ((c :: rest).drop pat.length) = 0 := by omega
        obtain ⟨t, ht⟩ := List.isPrefixOf_iff_prefix.mp hp.2
        have hdrop : (c :: rest).drop pat.length = t := by
          rw [← ht, List.drop_left]
        refine ⟨[], t, by simp [← ht], by rw [← hdrop]; exact hq0, ?_⟩
        rw [replaceAll_cons, if_pos hp, hdrop,
          countOcc_zero_id pat rep t (hdrop ▸ hq0)]
        simp
      · rw [countOcc_cons, if_neg hp] at h1
        have hlt : rest.length < n := by
          simp only [List.length_cons] at hn; omega
        obtain ⟨p, q, hsp, hq0, hrw⟩ := ih rest.length hlt rest rfl h1
        refine ⟨c :: p, q, by simp [hsp], hq0, ?_⟩
        rw [replaceAll_cons, if_neg hp, hrw]
        simp

/-- Python `int(s)` (base 10): strip whitespace, optional sign, then a
non-empty digit sequence in which single underscores may separate digits.
Returns `none` where the Python call raises `ValueError`. -/
def parseDigitsAux (acc : Nat) : List Char → Option Nat
  | [] => some acc
  | c :: rest =>
    if c.isDigit then parseDigitsAux (10 * acc + (c.toNat - '0'.toNat)) rest
    else if c = '_' then
      match rest with
      | d :: rest2 =>
        if d.isDigit then parseDigitsAux (10 * acc + (d.toNat - '0'.toNat)) rest2
        else none
      | [] => none
    else none

/-- Parse a non-empty digit sequence (with Python's underscore rule). -/
def parseDigits : List Char → Option Nat
  | [] => none
  | c :: rest =>
    if c.isDigit then parseDigitsAux (c.toNat - '0'.toNat) rest else none

/-- Python `int(s)` returning `none` on `ValueError`. -/
def pyInt (s : List Char) : Option Int :=
  match pyStrip s with
  | '+' :: rest => (parseDigits rest).map (fun n => (n : Int))
  | '-' :: rest => (parseDigits rest).map (fun n => -(n : Int))
  | t => (parseDigits t).map (fun n => (n : Int))

/-- A handler descriptor as recorded in `handler_info.txt`:
`name:start:end` with an inclusive line range.  The Python dict key `end`
is a Lean keyword, so the field is called `endL` here. -/
structure Handler where
  name : List Char
  start : Int
  endL : Int
deriving DecidableEq, Repr

/-- The descriptor name that both the Extractor and the Rewriter skip. -/
def exceptionName : List Char := s2l "handleStateMessage"

/-- Parse one line of `handler_info.txt` the way both the Extractor and the
Rewriter do: blank lines are skipped (`some none`); a non-blank line is
split on `:` and unpacked into exactly three fields (`none` = the script
dies with `ValueError` on a wrong field count); a line whose name is the
exception is skipped before its numeric fields are ever converted; any
other line must have both numeric fields parse as Python ints. -/
def parseInfoLine (line : List Char) : Option (Option Handler) :=
  let t := pyStrip line
  if t = [] then some none
  else
    match splitCols t with
    | [nm, st, en] =>
      if nm = exceptionName then some none
      else
        match pyInt st, pyInt en with
        | some a, some b => some (some ⟨nm, a, b⟩)
        | _, _ => none
    | _ => none

/-- Parse the whole `handler_info.txt` (as a list of lines); `none` models
the script terminating with an unhandled `ValueError`. -/
def parseHandlerInfo : List (List Char) → Option (List Handler)
  | [] => some []
  | l :: rest =>
    match parseInfoLine l, parseHandlerInfo rest with
    | some (some h), some hs => some (h :: hs)
    | some none, some hs => some hs
    | _, _ => none

/-! ### Scanner (extract_handlers.py) -/

/-- The alternation of the declaration regex
`re.match(r'  private async (handleEvent|...|handleBulk)', line)`. -/
def handlerNames : List (List Char) :=
  [s2l "handleEvent", s2l "handleReminder", s2l "handleTask",
   s2l "handleSettings", s2l "handleState", s2l "handleAdding",
   s2l "handleListing", s2l "handleMarking", s2l "handleDeleting",
   s2l "handleUpdating", s2l "handleBulk"]

/-- `re.match` anchors at the start of the line, so the declaration test is
a prefix test for `"  private async "` followed by one of the names. -/
def isDecl (line : List Char) : Bool :=
  handlerNames.any fun nm => (s2l "  private async " ++ nm).isPrefixOf line

/-- A word character of the regex class `\w` (ASCII part). -/
def isWordChar (c : Char) : Bool := c.isAlphanum || c = '_'

/-- Try the pattern `private async (\w+)\(` at the head of `l`
(the greedy `\w+` takes the maximal word run, which must be non-empty and
immediately followed by `(`). -/
def nameAt (l : List Char) : Option (List Char) :=
  if (s2l "private async ").isPrefixOf l then
    let r := l.drop (s2l "private async ").length
    let w := r.takeWhile isWordChar
    if w ≠ [] ∧ (r.drop w.length).head? = some '(' then some w else none
  else none

/-- `re.search(r'private async (\w+)\(', line)`: leftmost position at which
the whole pattern matches; `none` models the `AttributeError` crash on
`.group(1)` of a failed search. -/
def searchName : List Char → Option (List Char)
  | [] => none
  | c :: rest =>
    match nameAt (c :: rest) with
    | some w => some w
    | none => searchName rest

/-- `line.count('\x7b') - line.count('\x7d')`: the net brace delta of one
line, as an integer. -/
def braceDelta (line : List Char) : Int :=
  (line.count braceOpen : Int) - (line.count braceClose : Int)

/-- The method currently being tracked (`current_method` in the script):
its extracted name, its declaration line index, and the lines accumulated
so far (declaration line included). -/
structure CurMethod where
  name : List Char
  start : Nat
  linesAcc : List (List Char)
deriving DecidableEq, Repr

/-- The scan loop's mutable state: the handlers recorded so far, the method
being tracked (`none` exactly when `in_method` is false), and the brace
counter. -/
structure ScanState where
  handlers : List Handler
  current : Option CurMethod
  brace_count : Int
deriving DecidableEq, Repr

/-- One iteration of the scan loop on line `i`.  A declaration line starts
tracking afresh (crashing — `none` — if the name search fails); otherwise,
while tracking, the line is appended, the counter gets the line's net brace
delta, and the method closes at `i` exactly when the counter is zero and a
`\x7b` occurs in the accumulated lines. -/
def scanStep (st : ScanState) (i : Nat) (line : List Char) : Option ScanState :=
  if isDecl line then
    match searchName line with
    | none => none
    | some nm => some ⟨st.handlers, some ⟨nm, i, [line]⟩, braceDelta line⟩
  else
    match st.current with
    | none => some st
    | some cm =>
      let acc := cm.linesAcc ++ [line]
      let bc := st.brace_count + braceDelta line
      if bc = 0 ∧ acc.flatten.contains braceOpen then
        some ⟨st.handlers ++ [⟨cm.name, (cm.start : Int), (i : Int)⟩], none, 0⟩
      else
        some ⟨st.handlers, some ⟨cm.name, cm.start, acc⟩, bc⟩

/-- Run the scan loop over the lines starting at index `i`. -/
def scanLines (st : ScanState) (i : Nat) : List (List Char) → Option ScanState
  | [] => some st
  | l :: rest =>
    match scanStep st i l with
    | none => none
    | some st2 => scanLines st2 (i + 1) rest

/-- Scan a whole file (`content.split('\n')`, lines without newlines). -/
def scanFile (ls : List (List Char)) : Option ScanState :=
  scanLines ⟨[], none, 0⟩ 0 ls

/-! ### Extractor (extract_full_handlers.py) -/

/-- Clamp one Python slice endpoint to `[0, n]` (negative indices count
from the end, as in Python slicing). -/
def pyIndex (n : Nat) (i : Int) : Nat :=
  if i < 0 then (i + n).toNat else min i.toNat n

/-- Python `xs[a:b]`. -/
def pySlice (xs : List α) (a b : Int) : List α :=
  let i := pyIndex xs.length a
  let j := pyIndex xs.length b
  (xs.drop i).take (j - i)

/-- The placeholder block removed from the target file. -/
def placeholderText : List Char :=
  s2l "  // Placeholder - will be filled with actual handler implementations\n  // This is just the structure, the actual implementations will be extracted from MessageRouter.ts\n\x7d"

/-- The delimiting comment written before the extracted handlers. -/
def headerText : List Char :=
  s2l "\n  // ========== EVENT HANDLERS - FULL IMPLEMENTATION ==========\n\n"

/-- The closing line written after the extracted handlers. -/
def closeText : List Char := s2l "\x7d\n"

/-- `extracted_code`: for each listed handler, the `readlines` lines
`lines[start:end+1]` followed by one separating `"\n"` entry.  (The
handler list fed to this is already the exception-filtered parse result,
exactly as in the script.) -/
def extractedPieces (srcLines : List (List Char)) : List Handler → List (List Char)
  | [] => []
  | h :: rest =>
    pySlice srcLines h.start (h.endL + 1) ++ [s2l "\n"]
      ++ extractedPieces srcLines rest

/-- The full target file as rewritten by the Extractor: the old content
with the placeholder occurrences replaced by the empty string, then the
delimiting comment, the joined extracted code, and a closing brace line.
The write is unconditional. -/
def extractorOutput (srcLines : List (List Char)) (hs : List Handler)
    (target : List Char) : List Char :=
  replaceAll placeholderText [] target
    ++ headerText ++ (extractedPieces srcLines hs).flatten ++ closeText

/-! ### Rewriter (update_message_router.py): deletion step -/

/-- Membership of enumerate index `i` in `lines_to_remove`, the union of
`range(start, end+1)` over the listed handlers. -/
def memUnion (hs : List Handler) (i : Int) : Bool :=
  hs.any fun h => decide (h.start ≤ i ∧ i ≤ h.endL)

/-- The deletion loop (`for i, line in enumerate(lines): if i not in
lines_to_remove: new_lines.append(line)`), with `i` starting at `k`. -/
def deleteAux (hs : List Handler) (k : Nat) : List (List Char) → List (List Char)
  | [] => []
  | l :: rest =>
    if memUnion hs k then deleteAux hs (k + 1) rest
    else l :: deleteAux hs (k + 1) rest

/-- `new_lines`: the source lines with the listed ranges deleted. -/
def deleteLines (lines : List (List Char)) (hs : List Handler) : List (List Char) :=
  deleteAux hs 0 lines

/-! ### Rewriter: the four anchor substitutions -/

/-- Anchor for substitution 1 (the existing NLPRouter import line). -/
def importAnchor : List Char :=
  s2l "import \x7b NLPRouter \x7d from \x27../routing/NLPRouter.js\x27;"

/-- Replacement 1: the anchor followed by the new StateRouter import. -/
def importRepl : List Char :=
  importAnchor ++ s2l "\nimport \x7b StateRouter \x7d from \x27../routing/StateRouter.js\x27;"

/-- Anchor for substitution 2 (the nlpRouter field declaration). -/
def fieldAnchor : List Char := s2l "  private nlpRouter: NLPRouter;"

/-- Replacement 2: the anchor followed by the new field declaration. -/
def fieldRepl : List Char :=
  fieldAnchor ++ s2l "\n  private stateRouter: StateRouter;"

/-- Anchor for substitution 3 (`nlp_router_init`, the comment before which
the initialization block is inserted). -/
def initAnchor : List Char :=
  s2l "    // Set callback for showing menu after authentication"

/-- Replacement 3 (`state_router_init`): the initialization block followed
by a blank line and the anchor comment. -/
def initRepl : List Char :=
  s2l "    // Initialize StateRouter with required dependencies\n"
  ++ s2l "    this.stateRouter = new StateRouter(\n"
  ++ s2l "      stateManager,\n"
  ++ s2l "      eventService,\n"
  ++ s2l "      reminderService,\n"
  ++ s2l "      taskService,\n"
  ++ s2l "      settingsService,\n"
  ++ s2l "      this.commandRouter,\n"
  ++ s2l "      this.sendMessage.bind(this),\n"
  ++ s2l "      this.reactToLastMessage.bind(this)\n"
  ++ s2l "    );\n\n"
  ++ initAnchor

/-- Substitution 1: `content.replace(importAnchor, importRepl)`. -/
def rewriteImports (c : List Char) : List Char := replaceAll importAnchor importRepl c

/-- Substitution 2: `content.replace(fieldAnchor, fieldRepl)`. -/
def rewriteField (c : List Char) : List Char := replaceAll fieldAnchor fieldRepl c

/-- Substitution 3: `content.replace(initAnchor, initRepl)`. -/
def rewriteInitBlock (c : List Char) : List Char := replaceAll initAnchor initRepl c

/-! ### Rewriter: the `re.sub(old_handle_state, ..., flags=re.DOTALL)` call.

The pattern is
`  private async handleStateMessage\(\s*phone: string,\s*userId: string,\s*state: ConversationState,\s*text: string\s*\): Promise<void> \x7b[^\x7d]*switch \(state\) \x7b.*?\n  \x7d`.
Every `\s*` is immediately followed by a non-whitespace literal, so it
deterministically consumes the maximal whitespace run; the greedy
`[^\x7d]*` backtracks from the longest brace-free run; the non-greedy
`.*?` (DOTALL) stops at the first occurrence of the final literal. -/

/-- Match a literal at the head, returning the remainder. -/
def dropLit (lit s : List Char) : Option (List Char) :=
  if lit.isPrefixOf s then some (s.drop lit.length) else none

/-- Index of the first occurrence of `lit` in `s` (`none` if absent). -/
def firstIndexOf (lit : List Char) : List Char → Option Nat
  | [] => if lit = [] then some 0 else none
  | c :: rest =>
    if lit.isPrefixOf (c :: rest) then some 0
    else (firstIndexOf lit rest).map (· + 1)

/-- The literal pieces of the pattern. -/
def litHSM : List Char := s2l "  private async handleStateMessage("

def litPhone : List Char := s2l "phone: string,"

def litUser : List Char := s2l "userId: string,"

def litStateArg : List Char := s2l "state: ConversationState,"

def litTextArg : List Char := s2l "text: string"

def litSig : List Char := s2l "): Promise<void> \x7b"

def litSwitch : List Char := s2l "switch (state) \x7b"

def litTail : List Char := s2l "\n  \x7d"

/-- Attempt the pattern tail at offset `k` into `r`: `[^\x7d]*` having
consumed exactly `k` characters, then the switch literal, then `.*?` up to
the first occurrence of the closing literal.  Returns the total number of
characters of `r` consumed. -/
def tryBodyAt (r : List Char) (k : Nat) : Option Nat :=
  if litSwitch.isPrefixOf (r.drop k) then
    match firstIndexOf litTail (r.drop (k + litSwitch.length)) with
    | some j => some (k + litSwitch.length + j + litTail.length)
    | none => none
  else none

/-- Backtracking search for the greedy `[^\x7d]*`: try the longest
brace-free prefix first, shrinking on failure. -/
def searchBodyDown (r : List Char) : Nat → Option Nat
  | 0 => tryBodyAt r 0
  | k + 1 =>
    match tryBodyAt r (k + 1) with
    | some m => some m
    | none => searchBodyDown r k

/-- Match the whole pattern at the head of `s`, returning the remainder of
`s` after the match (`none` if the pattern does not match here). -/
def matchAt (s : List Char) : Option (List Char) :=
  (dropLit litHSM s).bind fun s1 =>
  (dropLit litPhone (s1.dropWhile pyIsSpace)).bind fun s2 =>
  (dropLit litUser (s2.dropWhile pyIsSpace)).bind fun s3 =>
  (dropLit litStateArg (s3.dropWhile pyIsSpace)).bind fun s4 =>
  (dropLit litTextArg (s4.dropWhile pyIsSpace)).bind fun s5 =>
  (dropLit litSig (s5.dropWhile pyIsSpace)).bind fun r =>
  (searchBodyDown r (r.takeWhile (fun c => c ≠ braceClose)).length).map
    fun m => r.drop m

theorem dropLit_suffix {lit s t : List Char} (h : dropLit lit s = some t) :
    t.length + lit.length = s.length ∧ t <:+ s := by
  unfold dropLit at h
  by_cases hp : lit.isPrefixOf s
  · rw [if_pos hp] at h
    obtain ⟨u, hu⟩ := List.isPrefixOf_iff_prefix.mp hp
    cases h
    constructor
    · have := congrArg List.length hu
      simp only [List.length_append] at this
      simp only [List.length_drop]
      omega
    · exact List.drop_suffix _ _
  · rw [if_neg hp] at h; cases h

theorem matchAt_suffix {s rem : List Char} (h : matchAt s = some rem) :
    rem <:+ s ∧ rem.length < s.length := by
  unfold matchAt at h
  simp only [Option.bind_eq_bind, Option.bind_eq_some, Option.map_eq_some,
    Option.map_eq_some'] at h
  obtain ⟨s1, h1, s2, h2, s3, h3, s4, h4, s5, h5, r, hr, m, hm, hrem⟩ := h
  obtain ⟨e1, sfx1⟩ := dropLit_suffix h1
  obtain ⟨e2, sfx2⟩ := dropLit_suffix h2
  obtain ⟨e3, sfx3⟩ := dropLit_suffix h3
  obtain ⟨e4, sfx4⟩ := dropLit_suffix h4
  obtain ⟨e5, sfx5⟩ := dropLit_suffix h5
  obtain ⟨e6, sfx6⟩ := dropLit_suffix hr
  have wsfx : ∀ u : List Char, u.dropWhile pyIsSpace <:+ u := fun u =>
    List.dropWhile_suffix pyIsSpace
  have hrem2 : rem <:+ r := hrem ▸ List.drop_suffix m r
  have chain : rem <:+ s1 :=
    hrem2.trans ((sfx6.trans (wsfx s5)).trans
      ((sfx5.trans (wsfx s4)).trans ((sfx4.trans (wsfx s3)).trans
        ((sfx3.trans (wsfx s2)).trans (sfx2.trans (wsfx s1))))))
  have hsz : litHSM.length = 35 := by decide
  constructor
  · exact chain.trans sfx1
  · have := chain.length_le
    omega

/-- `re.sub(pattern, rep, content)`: replace every non-overlapping match,
scanning left to right and resuming after each match; fuelled so that it
evaluates by structural recursion (every match consumes at least one
character, so `fuel = s.length` through the wrapper makes the fuel
irrelevant). -/
def reSubAllF (rep : List Char) : Nat → List Char → List Char
  | _, [] => []
  | 0, s => s
  | fuel + 1, c :: rest =>
    match matchAt (c :: rest) with
    | some rem => rep ++ reSubAllF rep fuel rem
    | none => c :: reSubAllF rep fuel rest

/-- `re.sub(pattern, rep, content)`. -/
def reSubAll (rep s : List Char) : List Char := reSubAllF rep s.length s

/-- The number of non-overlapping pattern matches `re.sub` replaces,
fuelled likewise. -/
def countMatchesF : Nat → List Char → Nat
  | _, [] => 0
  | 0, _ => 0
  | fuel + 1, c :: rest =>
    match matchAt (c :: rest) with
    | some rem => 1 + countMatchesF fuel rem
    | none => countMatchesF fuel rest

/-- The number of non-overlapping pattern matches in `s`. -/
def countMatches (s : List Char) : Nat := countMatchesF s.length s

theorem reSubAllF_fuel (rep : List Char) :
    ∀ (f1 f2 : Nat) (s : List Char), s.length ≤ f1 → s.length ≤ f2 →
      reSubAllF rep f1 s = reSubAllF rep f2 s := by
  intro f1
  induction f1 with
  | zero =>
    intro f2 s h1 _
    have : s = [] := List.length_eq_zero.mp (Nat.le_zero.mp h1)
    subst this
    cases f2 <;> rfl
  | succ f ih =>
    intro f2 s h1 h2
    cases s with
    | nil => cases f2 <;> rfl
    | cons c rest =>
      cases f2 with
      | zero => simp at h2
      | succ f2' =>
        simp only [List.length_cons] at h1 h2
        cases hm : matchAt (c :: rest) with
        | some rem =>
          have hlt := (matchAt_suffix hm).2
          simp only [List.length_cons] at hlt
          simp only [reSubAllF, hm]
          rw [ih f2' rem (by omega) (by omega)]
        | none =>
          simp only [reSubAllF, hm]
          rw [ih f2' rest (by omega) (by omega)]

theorem countMatchesF_fuel :
    ∀ (f1 f2 : Nat) (s : List Char), s.length ≤ f1 → s.length ≤ f2 →
      countMatchesF f1 s = countMatchesF f2 s := by
  intro f1
  induction f1 with
  | zero =>
    intro f2 s h1 _
    have : s = [] := List.length_eq_zero.mp (Nat.le_zero.mp h1)
    subst this
    cases f2 <;> rfl
  | succ f ih =>
    intro f2 s h1 h2
    cases s with
    | nil => cases f2 <;> rfl
    | cons c rest =>
      cases f2 with
      | zero => simp at h2
      | succ f2' =>
        simp only [List.length_cons] at h1 h2
        cases hm : matchAt (c :: rest) with
        | some rem =>
          have hlt := (matchAt_suffix hm).2
          simp only [List.length_cons] at hlt
          simp only [countMatchesF, hm]
          rw [ih f2' rem (by omega) (by omega)]
        | none =>
          simp only [countMatchesF, hm]
          rw [ih f2' rest (by omega) (by omega)]

theorem reSubAll_cons_match {c : Char} {rest rem : List Char}
    (hm : matchAt (c :: rest) = some rem) (rep : List Char) :
    reSubAll rep (c :: rest) = rep ++ reSubAll rep rem := by
  unfold reSubAll
  show reSubAllF rep (rest.length + 1) (c :: rest) = _
  simp only [reSubAllF, hm]
  have hlt := (matchAt_suffix hm).2
  simp only [List.length_cons] at hlt
  rw [reSubAllF_fuel rep rest.length rem.length rem (by omega) (le_refl _)]

theorem reSubAll_cons_nomatch {c : Char} {rest : List Char}
    (hm : matchAt (c :: rest) = none) (rep : List Char) :
    reSubAll rep (c :: rest) = c :: reSubAll rep rest := by
  unfold reSubAll
  show reSubAllF rep (rest.length + 1) (c :: rest) = _
  simp only [reSubAllF, hm]

theorem countMatches_cons_match {c : Char} {rest rem : List Char}
    (hm : matchAt (c :: rest) = some rem) :
    countMatches (c :: rest) = 1 + countMatches rem := by
  unfold countMatches
  show countMatchesF (rest.length + 1) (c :: rest) = _
  simp only [countMatchesF, hm]
  have hlt := (matchAt_suffix hm).2
  simp only [List.length_cons] at hlt
  rw [countMatchesF_fuel rest.length rem.length rem (by omega) (le_refl _)]

theorem countMatches_cons_nomatch {c : Char} {rest : List Char}
    (hm : matchAt (c :: rest) = none) :
    countMatches (c :: rest) = countMatches rest := by
  unfold countMatches
  show countMatchesF (rest.length + 1) (c :: rest) = _
  simp only [countMatchesF, hm]

/-- `new_handle_state`: the delegating replacement body. -/
def newHandleState : List Char :=
  s2l "  private async handleStateMessage(\n"
  ++ s2l "    phone: string,\n"
  ++ s2l "    userId: string,\n"
  ++ s2l "    state: ConversationState,\n"
  ++ s2l "    text: string\n"
  ++ s2l "  ): Promise<void> \x7b\n"
  ++ s2l "    // Handle MAIN_MENU state here (not delegated to StateRouter)\n"
  ++ s2l "    if (state === ConversationState.IDLE || state === ConversationState.MAIN_MENU) \x7b\n"
  ++ s2l "      await this.handleMainMenuChoice(phone, userId, text);\n"
  ++ s2l "      return;\n"
  ++ s2l "    \x7d\n\n"
  ++ s2l "    // Delegate all other states to StateRouter\n"
  ++ s2l "    await this.stateRouter.handleStateMessage(phone, userId, state, text);\n"
  ++ s2l "  \x7d"

/-- Substitution 4: the `re.sub` replacing the handleStateMessage body. -/
def rewriteHandleState (c : List Char) : List Char := reSubAll newHandleState c

/-- The four substitutions in script order. -/
def updateContent (c : List Char) : List Char :=
  rewriteHandleState (rewriteInitBlock (rewriteField (rewriteImports c)))

/-- The Rewriter's closing console report, printed unconditionally. -/
def rewriterReport (hs : List Handler) : List (List Char) :=
  [s2l "MessageRouter.ts updated successfully!",
   s2l "Removed " ++ s2l (toString hs.length) ++ s2l " handler methods",
   s2l "Added StateRouter import and initialization",
   s2l "Updated handleStateMessage to delegate to StateRouter"]

/-- The whole Rewriter on in-memory data: new file content plus report. -/
def rewriterRun (srcLines : List (List Char)) (hs : List Handler) :
    List Char × List (List Char) :=
  (updateContent (deleteLines srcLines hs).flatten, rewriterReport hs)

/-! ### Listing-parse lemmas -/

theorem parseHandlerInfo_fault (l : List Char) (hl : parseInfoLine l = none) :
    ∀ pre post : List (List Char), parseHandlerInfo (pre ++ l :: post) = none := by
  intro pre post
  induction pre with
  | nil => simp [parseHandlerInfo, hl]
  | cons x xs ih =>
    rw [List.cons_append, parseHandlerInfo, ih]
    rcases parseInfoLine x with _ | (_ | h) <;> rfl

theorem parseHandlerInfo_skip (l : List Char) (hl : parseInfoLine l = some none) :
    ∀ pre post : List (List Char),
      parseHandlerInfo (pre ++ l :: post) = parseHandlerInfo (pre ++ post) := by
  intro pre post
  induction pre with
  | nil =>
    rw [List.nil_append, List.nil_append, parseHandlerInfo, hl]
    cases parseHandlerInfo post <;> rfl
  | cons x xs ih =>
    rw [List.cons_append, List.cons_append, parseHandlerInfo, parseHandlerInfo, ih]

theorem parseInfoLine_wrong_fields (l : List Char) (h1 : pyStrip l ≠ [])
    (h2 : (splitCols (pyStrip l)).length ≠ 3) : parseInfoLine l = none := by
  unfold parseInfoLine
  rw [if_neg h1]
  rcases hs : splitCols (pyStrip l) with _ | ⟨a, _ | ⟨b, _ | ⟨c, _ | ⟨d, rest⟩⟩⟩⟩
  · rfl
  · rfl
  · rfl
  · rw [hs] at h2; simp at h2
  · rfl

theorem parseInfoLine_bad_int (l nm st en : List Char) (h1 : pyStrip l ≠ [])
    (hs : splitCols (pyStrip l) = [nm, st, en]) (hne : nm ≠ exceptionName)
    (hbad : pyInt st = none ∨ pyInt en = none) : parseInfoLine l = none := by
  unfold parseInfoLine
  rw [if_neg h1, hs]
  simp only [if_neg hne]
  rcases hbad with hb | hb
  · rw [hb]
  · rw [hb]; cases pyInt st <;> rfl

theorem parseInfoLine_blank (l : List Char) (h : pyStrip l = []) :
    parseInfoLine l = some none := by
  unfold parseInfoLine
  rw [if_pos h]

/-- C8 (amended): a non-blank listing line that does not split into exactly
three colon-separated fields makes the (shared) listing parse of the
Extractor and the Rewriter terminate with an unhandled fault; so does a
three-field line whose name is not `handleStateMessage` and whose numeric
fields do not parse as Python ints; but a three-field line named
`handleStateMessage` is skipped before its numeric fields are converted,
so it never faults; blank lines are skipped. -/
theorem listing_parse_fault_behavior :
    (∀ (pre post : List (List Char)) (l : List Char), pyStrip l ≠ [] →
        (splitCols (pyStrip l)).length ≠ 3 →
        parseHandlerInfo (pre ++ l :: post) = none)
    ∧ (∀ (pre post : List (List Char)) (l nm st en : List Char),
        pyStrip l ≠ [] → splitCols (pyStrip l) = [nm, st, en] →
        nm ≠ exceptionName → (pyInt st = none ∨ pyInt en = none) →
        parseHandlerInfo (pre ++ l :: post) = none)
    ∧ (∀ (pre post : List (List Char)) (l nm st en : List Char),
        pyStrip l ≠ [] → splitCols (pyStrip l) = [nm, st, en] →
        nm = exceptionName →
        parseHandlerInfo (pre ++ l :: post) = parseHandlerInfo (pre ++ post))
    ∧ (∀ (pre post : List (List Char)) (l : List Char), pyStrip l = [] →
        parseHandlerInfo (pre ++ l :: post) = parseHandlerInfo (pre ++ post)) := by
  refine ⟨?_, ?_, ?_, ?_⟩
  · intro pre post l h1 h2
    exact parseHandlerInfo_fault l (parseInfoLine_wrong_fields l h1 h2) pre post
  · intro pre post l nm st en h1 hs hne hbad
    exact parseHandlerInfo_fault l (parseInfoLine_bad_int l nm st en h1 hs hne hbad) pre post
  · intro pre post l nm st en h1 hs hnm
    have hline : parseInfoLine l = some none := by
      unfold parseInfoLine
      rw [if_neg h1, hs]
      simp only [if_pos hnm]
    exact parseHandlerInfo_skip l hline pre post
  · intro pre post l h
    exact parseHandlerInfo_skip l (parseInfoLine_blank l h) pre post

/-- C8 witness: concrete listings exercising each branch of
`listing_parse_fault_behavior`. -/
theorem listing_parse_fault_behavior_witness :
    parseHandlerInfo [s2l "a:1"] = none
    ∧ parseHandlerInfo [s2l "handleFoo:2:zz"] = none
    ∧ parseHandlerInfo [s2l "handleStateMessage:xx:yy", s2l "handleFoo:2:4"]
        = parseHandlerInfo [s2l "handleFoo:2:4"]
    ∧ parseHandlerInfo [s2l "  ", s2l "handleFoo:2:4"]
        = parseHandlerInfo [s2l "handleFoo:2:4"] :=
  ⟨listing_parse_fault_behavior.1 [] [] (s2l "a:1") (by decide) (by decide),
   listing_parse_fault_behavior.2.1 [] [] (s2l "handleFoo:2:zz")
     (s2l "handleFoo") (s2l "2") (s2l "zz") (by decide) (by decide) (by decide)
     (Or.inr (by decide)),
   listing_parse_fault_behavior.2.2.1 [] [s2l "handleFoo:2:4"]
     (s2l "handleStateMessage:xx:yy") (s2l "handleStateMessage") (s2l "xx")
     (s2l "yy") (by decide) (by decide) (by decide),
   listing_parse_fault_behavior.2.2.2 [] [s2l "handleFoo:2:4"] (s2l "  ")
     (by decide)⟩

/-- C8 counterexample: the claim says a listing line whose numeric fields
are not parseable integers makes the scripts fault, but a three-field line
named `handleStateMessage` with unparseable numbers is skipped without any
fault (the scripts test the name before converting the numbers). -/
theorem listing_exception_line_no_fault :
    parseHandlerInfo [s2l "handleStateMessage:xx:yy"] = some [] := by
  decide

/-! ### Deletion-step lemmas -/

theorem deleteAux_eq_filterMap (hs : List Handler) :
    ∀ (ls : List (List Char)) (k : Nat),
      deleteAux hs k ls = (List.range ls.length).filterMap
        (fun j => if memUnion hs ((k + j : Nat) : Int) then none else ls[j]?) := by
  intro ls
  induction ls with
  | nil => intro k; simp [deleteAux]
  | cons l rest ih =>
    intro k
    rw [deleteAux, List.length_cons, List.range_succ_eq_map,
      List.filterMap_cons, List.filterMap_map]
    have harg : ((fun j => if memUnion hs ((k + j : Nat) : Int) then none
          else (l :: rest)[j]?) ∘ Nat.succ)
        = (fun j => if memUnion hs (((k + 1) + j : Nat) : Int) then none
          else rest[j]?) := by
      funext j
      have hidx : k + (j + 1) = (k + 1) + j := by omega
      simp [Function.comp, hidx]
    by_cases hm : memUnion hs ((k : Nat) : Int)
    · simp only [Nat.add_zero] at *
      rw [if_pos hm, harg, ih (k + 1)]
      simp [hm]
    · simp only [Nat.add_zero] at *
      rw [if_neg hm, harg, ih (k + 1)]
      simp [hm]

theorem deleteAux_length (hs : List Handler) :
    ∀ (ls : List (List Char)) (k : Nat),
      (deleteAux hs k ls).length = ls.length
        - (List.range ls.length).countP
            (fun j => memUnion hs ((k + j : Nat) : Int)) := by
  intro ls
  induction ls with
  | nil => intro k; simp [deleteAux]
  | cons l rest ih =>
    intro k
    rw [List.length_cons, List.range_succ_eq_map, List.countP_cons,
      List.countP_map]
    have harg : ((fun j => memUnion hs ((k + j : Nat) : Int)) ∘ Nat.succ)
        = (fun j => memUnion hs (((k + 1) + j : Nat) : Int)) := by
      funext j
      have hidx : k + (j + 1) = (k + 1) + j := by omega
      simp [Function.comp, hidx]
    have hle := List.countP_le_length
      (fun j => memUnion hs (((k + 1) + j : Nat) : Int)) (l := List.range rest.length)
    by_cases hm : memUnion hs ((k : Nat) : Int)
    · rw [deleteAux, if_pos hm, ih (k + 1), harg]
      simp only [Nat.add_zero, hm, eq_self_iff_true, if_true]
      simp only [List.length_range] at *
      omega
    · rw [deleteAux, if_neg hm, List.length_cons, ih (k + 1), harg]
      simp only [Nat.add_zero, hm, Bool.false_eq_true, if_false]
      simp only [List.length_range] at *
      omega

theorem deleteAux_sublist (hs : List Handler) :
    ∀ (ls : List (List Char)) (k : Nat), (deleteAux hs k ls).Sublist ls := by
  intro ls
  induction ls with
  | nil => intro k; simp [deleteAux]
  | cons l rest ih =>
    intro k
    rw [deleteAux]
    by_cases hm : memUnion hs ((k : Nat) : Int)
    · rw [if_pos hm]
      exact (ih (k + 1)).trans (List.sublist_cons_self l rest)
    · rw [if_neg hm]
      exact (ih (k + 1)).cons₂ l

theorem memUnion_cons_dup (h : Handler) (hs : List Handler) :
    ∀ i : Int, memUnion (h :: h :: hs) i = memUnion (h :: hs) i := by
  intro i
  simp only [memUnion, List.any_cons]
  rw [← Bool.or_assoc, Bool.or_self]

theorem deleteAux_congr (hs1 hs2 : List Handler)
    (h : ∀ i : Int, memUnion hs1 i = memUnion hs2 i) :
    ∀ (ls : List (List Char)) (k : Nat), deleteAux hs1 k ls = deleteAux hs2 k ls := by
  intro ls
  induction ls with
  | nil => intro k; rfl
  | cons l rest ih =>
    intro k
    rw [deleteAux, deleteAux, h ((k : Nat) : Int), ih (k + 1)]

/-- C9: the Rewriter's deletion step removes exactly the lines whose
indices lie in the union of the listed ranges (each index removed at most
once, so duplicate descriptors change nothing), and every line outside the
union survives byte-for-byte in its original relative order (the output is
the index-filtered subsequence of the input). -/
theorem deletion_frame_exactness :
    (∀ (lines : List (List Char)) (hs : List Handler),
      deleteLines lines hs = (List.range lines.length).filterMap
        (fun j : Nat => if memUnion hs (j : Int) then none else lines[j]?))
    ∧ (∀ (lines : List (List Char)) (h : Handler) (hs : List Handler),
      deleteLines lines (h :: h :: hs) = deleteLines lines (h :: hs))
    ∧ (∀ (lines : List (List Char)) (hs : List Handler),
      (deleteLines lines hs).Sublist lines) := by
  refine ⟨?_, ?_, ?_⟩
  · intro lines hs
    rw [deleteLines, deleteAux_eq_filterMap]
    simp only [Nat.zero_add]
  · intro lines h hs
    exact deleteAux_congr _ _ (memUnion_cons_dup h hs) lines 0
  · intro lines hs
    exact deleteAux_sublist hs lines 0

theorem countP_or_disj {α : Type} (p q : α → Bool) :
    ∀ l : List α, (∀ a ∈ l, ¬(p a = true ∧ q a = true)) →
      l.countP (fun a => p a || q a) = l.countP p + l.countP q := by
  intro l
  induction l with
  | nil => intro _; simp
  | cons a rest ih =>
    intro hd
    have hrest := ih (fun b hb => hd b (List.mem_cons_of_mem a hb))
    have ha := hd a (List.mem_cons_self a rest)
    rw [List.countP_cons, List.countP_cons, List.countP_cons, hrest]
    cases hp : p a <;> cases hq : q a <;> simp_all <;> omega

theorem countP_range_interval (s e : Int) :
    ∀ n : Nat, (List.range n).countP (fun k : Nat => decide (s ≤ (k : Int) ∧ (k : Int) ≤ e))
      = (min (e + 1) (n : Int) - max s 0).toNat := by
  intro n
  induction n with
  | zero =>
    simp only [List.range_zero, List.countP_nil, Nat.cast_zero]
    simp only [min_def, max_def]
    split_ifs <;> omega
  | succ m ih =>
    rw [List.range_succ, List.countP_append, ih]
    simp only [List.countP_cons, List.countP_nil, Nat.zero_add]
    by_cases hin : s ≤ (m : Int) ∧ (m : Int) ≤ e
    · simp only [decide_eq_true hin, if_true]
      push_cast
      simp only [min_def, max_def]
      split_ifs <;> omega
    · simp only [decide_eq_false hin, Bool.false_eq_true, if_false]
      push_cast
      simp only [min_def, max_def]
      split_ifs <;> omega

theorem countP_memUnion_disjoint :
    ∀ (hs : List Handler) (n : Nat),
      (∀ h ∈ hs, 0 ≤ h.start ∧ h.start ≤ h.endL ∧ h.endL < (n : Int)) →
      List.Pairwise (fun a b => a.endL < b.start ∨ b.endL < a.start) hs →
      ((List.range n).countP (fun k : Nat => memUnion hs (k : Int)) : Int)
        = (hs.map (fun h => h.endL - h.start + 1)).sum := by
  intro hs
  induction hs with
  | nil => intro n _ _; simp [memUnion]
  | cons h t ih =>
    intro n hb hd
    have hdisj : ∀ a ∈ List.range n,
        ¬((decide (h.start ≤ (a : Int) ∧ (a : Int) ≤ h.endL)) = true
          ∧ (memUnion t (a : Int)) = true) := by
      intro a _ ⟨h1, h2⟩
      simp only [decide_eq_true_eq] at h1
      simp only [memUnion, List.any_eq_true, decide_eq_true_eq] at h2
      obtain ⟨b, hbmem, hb1, hb2⟩ := h2
      rcases (List.pairwise_cons.mp hd).1 b hbmem with hlt | hlt <;> omega
    have hsplit : (List.range n).countP (fun k : Nat => memUnion (h :: t) (k : Int))
        = (List.range n).countP
            (fun k : Nat => decide (h.start ≤ (k : Int) ∧ (k : Int) ≤ h.endL))
          + (List.range n).countP (fun k : Nat => memUnion t (k : Int)) := by
      have := countP_or_disj
        (fun k : Nat => decide (h.start ≤ (k : Int) ∧ (k : Int) ≤ h.endL))
        (fun k : Nat => memUnion t (k : Int)) (List.range n) hdisj
      rw [← this]
      apply List.countP_congr
      intro a _
      simp [memUnion, List.any_cons]
    rw [hsplit]
    have hbh := hb h (List.mem_cons_self h t)
    have hiv := countP_range_interval h.start h.endL n
    have hih := ih n (fun b hbm => hb b (List.mem_cons_of_mem h hbm))
      (List.pairwise_cons.mp hd).2
    rw [List.map_cons, List.sum_cons]
    push_cast [hiv]
    omega

/-- C2 counterexample: the claim asserts the line-count identity for every
listing, but with overlapping descriptors the removed index set is smaller
than the sum of the range sizes (each index is deleted at most once), so
the identity fails on a 6-line file with ranges 0–2 and 1–3. -/
theorem deletion_line_count_overlap_cex :
    ((deleteLines
        [s2l "l0", s2l "l1", s2l "l2", s2l "l3", s2l "l4", s2l "l5"]
        [⟨s2l "a", 0, 2⟩, ⟨s2l "b", 1, 3⟩]).length : Int)
      ≠ (6 : Int)
        - (([⟨s2l "a", 0, 2⟩, ⟨s2l "b", 1, 3⟩] : List Handler).map
            (fun h => h.endL - h.start + 1)).sum := by
  decide

/-- C2 (amended): for every listing whose (non-exception) descriptor
ranges are in bounds and pairwise disjoint, the deletion step satisfies
`lines_after = lines_before - sum(end - start + 1)` exactly.  (With
overlapping or repeated ranges the code removes each index once, so only
`≥` the sum-based prediction of removals can fail; see the
counterexample.) -/
theorem deletion_line_count_conservation (lines : List (List Char))
    (hs : List Handler)
    (hb : ∀ h ∈ hs, 0 ≤ h.start ∧ h.start ≤ h.endL ∧ h.endL < (lines.length : Int))
    (hd : List.Pairwise (fun a b => a.endL < b.start ∨ b.endL < a.start) hs) :
    ((deleteLines lines hs).length : Int)
      = (lines.length : Int) - (hs.map (fun h => h.endL - h.start + 1)).sum := by
  have hlen := deleteAux_length hs lines 0
  have hcnt := countP_memUnion_disjoint hs lines.length hb hd
  have hle := List.countP_le_length
    (fun k : Nat => memUnion hs (k : Int)) (l := List.range lines.length)
  simp only [List.length_range] at hle
  rw [deleteLines, hlen]
  simp only [Nat.zero_add]
  rw [← hcnt]
  omega

/-- C2 witness: the amended line-count identity evaluated on a 5-line file
with the single in-bounds range 1–2. -/
theorem deletion_line_count_conservation_witness :
    ((deleteLines [s2l "l0", s2l "l1", s2l "l2", s2l "l3", s2l "l4"]
        [⟨s2l "a", 1, 2⟩]).length : Int)
      = (5 : Int)
        - (([⟨s2l "a", 1, 2⟩] : List Handler).map
            (fun h => h.endL - h.start + 1)).sum :=
  deletion_line_count_conservation
    [s2l "l0", s2l "l1", s2l "l2", s2l "l3", s2l "l4"]
    [⟨s2l "a", 1, 2⟩] (by decide) (by simp)

/-! ### Scanner invariants -/

/-- The inductive invariant of the scan loop at position `pos`: recorded
descriptors are in bounds with `start + 1 ≤ end`, they are chained in
strictly separated file order, and any tracked method started before `pos`
and after every recorded descriptor's end. -/
def ScanInv (st : ScanState) (pos : Nat) : Prop :=
  (∀ d ∈ st.handlers, 0 ≤ d.start ∧ d.start + 1 ≤ d.endL ∧ d.endL < (pos : Int))
  ∧ List.Chain' (fun a b => a.endL < b.start ∧ a.start ≤ b.start) st.handlers
  ∧ (∀ cm, st.current = some cm →
      cm.start < pos ∧ ∀ d ∈ st.handlers, d.endL < (cm.start : Int))

theorem scanStep_inv {st st' : ScanState} {i : Nat} {line : List Char}
    (h : scanStep st i line = some st') (hinv : ScanInv st i) :
    ScanInv st' (i + 1) := by
  obtain ⟨hbnd, hchain, hcur⟩ := hinv
  unfold scanStep at h
  by_cases hdecl : isDecl line = true
  · rw [if_pos hdecl] at h
    cases hs : searchName line with
    | none => rw [hs] at h; cases h
    | some nm =>
      rw [hs] at h
      cases h
      refine ⟨?_, hchain, ?_⟩
      · intro d hd
        have := hbnd d hd
        push_cast at *
        omega
      · intro cm hcm
        cases hcm
        refine ⟨Nat.lt_succ_self i, ?_⟩
        intro d hd
        have := hbnd d hd
        push_cast at *
        omega
  · rw [if_neg hdecl] at h
    cases hc : st.current with
    | none =>
      rw [hc] at h
      cases h
      refine ⟨?_, hchain, ?_⟩
      · intro d hd
        have := hbnd d hd
        push_cast at *
        omega
      · intro cm hcm
        rw [hc] at hcm
        cases hcm
    | some cm =>
      rw [hc] at h
      simp only at h
      obtain ⟨hstart, hsep⟩ := hcur cm hc
      by_cases hcl : st.brace_count + braceDelta line = 0
        ∧ ((cm.linesAcc ++ [line]).flatten.contains braceOpen = true)
      · rw [if_pos hcl] at h
        cases h
        refine ⟨?_, ?_, ?_⟩
        · intro d hd
          rcases List.mem_append.mp hd with hd1 | hd2
          · have := hbnd d hd1
            push_cast at *
            omega
          · rcases List.mem_singleton.mp hd2 with rfl
            simp only
            push_cast
            omega
        · rw [List.chain'_append]
          refine ⟨hchain, List.chain'_singleton _, ?_⟩
          intro x hx y hy
          have hxm : x ∈ st.handlers := by
            obtain ⟨hne, hxe⟩ := List.mem_getLast?_eq_getLast hx
            rw [hxe]
            exact List.getLast_mem hne
          have hxb := hbnd x hxm
          have hxs := hsep x hxm
          simp only [List.head?_cons, Option.mem_def, Option.some.injEq] at hy
          subst hy
          constructor
          · simpa using hxs
          · simp only
            push_cast at *
            omega
        · intro cm2 hcm2
          cases hcm2
      · rw [if_neg hcl] at h
        cases h
        refine ⟨?_, hchain, ?_⟩
        · intro d hd
          have := hbnd d hd
          push_cast at *
          omega
        · intro cm2 hcm2
          cases hcm2
          refine ⟨by change cm.start < i + 1; omega, ?_⟩
          intro d hd
          exact hsep d hd

theorem scanLines_inv :
    ∀ (ls : List (List Char)) (st : ScanState) (i : Nat) (st' : ScanState),
      scanLines st i ls = some st' → ScanInv st i → ScanInv st' (i + ls.length) := by
  intro ls
  induction ls with
  | nil =>
    intro st i st' h hinv
    rw [scanLines] at h
    cases h
    simpa using hinv
  | cons l rest ih =>
    intro st i st' h hinv
    rw [scanLines] at h
    cases hs : scanStep st i l with
    | none => rw [hs] at h; cases h
    | some st2 =>
      rw [hs] at h
      have h2 := ih st2 (i + 1) st' h (scanStep_inv hs hinv)
      have : i + 1 + rest.length = i + (l :: rest).length := by
        simp [List.length_cons]; omega
      rwa [this] at h2

theorem scanFile_inv (ls : List (List Char)) (st : ScanState)
    (h : scanFile ls = some st) : ScanInv st ls.length := by
  have h0 : ScanInv ⟨[], none, 0⟩ 0 := by
    refine ⟨by simp, List.chain'_nil, ?_⟩
    intro cm hcm
    cases hcm
  have := scanLines_inv ls ⟨[], none, 0⟩ 0 st h h0
  simpa using this

/-- C3: for every tracked method, a (non-declaration) line after the
declaration line adds its net brace delta (count of opening minus closing
braces) to the counter, and exactly when that updated counter is zero
while an opening brace has been seen across the tracked lines, the method
is closed at the current line: its descriptor (name, start, current index)
is appended to the result and tracking resets; otherwise the accumulated
lines and updated counter carry over and nothing is appended. -/
theorem scanner_tracking_step (st : ScanState) (cm : CurMethod) (i : Nat)
    (line : List Char) (hcur : st.current = some cm)
    (hdecl : isDecl line = false) :
    ∃ st2, scanStep st i line = some st2
      ∧ ((st.brace_count + braceDelta line = 0
            ∧ ((cm.linesAcc ++ [line]).flatten.contains braceOpen = true))
          → st2.handlers = st.handlers ++ [⟨cm.name, (cm.start : Int), (i : Int)⟩]
            ∧ st2.current = none ∧ st2.brace_count = 0)
      ∧ (¬(st.brace_count + braceDelta line = 0
            ∧ ((cm.linesAcc ++ [line]).flatten.contains braceOpen = true))
          → st2.handlers = st.handlers
            ∧ st2.current = some ⟨cm.name, cm.start, cm.linesAcc ++ [line]⟩
            ∧ st2.brace_count = st.brace_count + braceDelta line) := by
  unfold scanStep
  rw [hdecl]
  simp only [Bool.false_eq_true, if_false, hcur]
  by_cases hcl : st.brace_count + braceDelta line = 0
    ∧ ((cm.linesAcc ++ [line]).flatten.contains braceOpen = true)
  · exact ⟨⟨st.handlers ++ [⟨cm.name, (cm.start : Int), (i : Int)⟩], none, 0⟩,
      by simp only [if_pos hcl], fun _ => ⟨rfl, rfl, rfl⟩,
      fun hn => absurd hcl hn⟩
  · exact ⟨⟨st.handlers, some ⟨cm.name, cm.start, cm.linesAcc ++ [line]⟩,
        st.brace_count + braceDelta line⟩,
      by simp only [if_neg hcl], fun hyes => absurd hyes hcl,
      fun _ => ⟨rfl, rfl, rfl⟩⟩

/-- C3 witness: the tracking step applied to a concrete state on the
closing line of a two-line method. -/
theorem scanner_tracking_step_witness :
    (scanStep
      ⟨[], some ⟨s2l "handleEventFoo", 0,
          [s2l "  private async handleEventFoo(a) \x7b"]⟩, 1⟩
      1 (s2l "  \x7d")).isSome = true := by
  obtain ⟨st2, hst, -, -⟩ := scanner_tracking_step
    ⟨[], some ⟨s2l "handleEventFoo", 0,
        [s2l "  private async handleEventFoo(a) \x7b"]⟩, 1⟩
    ⟨s2l "handleEventFoo", 0, [s2l "  private async handleEventFoo(a) \x7b"]⟩
    1 (s2l "  \x7d") rfl (by decide)
  rw [hst]
  rfl

/-- C4: every descriptor produced by the Scanner satisfies
`0 ≤ start ≤ end < total_line_count`, and the output listing is in
non-decreasing start order (file order). -/
theorem scanner_range_validity (ls : List (List Char)) (st : ScanState)
    (h : scanFile ls = some st) :
    (∀ d ∈ st.handlers,
        0 ≤ d.start ∧ d.start ≤ d.endL ∧ d.endL < (ls.length : Int))
    ∧ List.Chain' (fun a b => a.start ≤ b.start) st.handlers := by
  obtain ⟨hbnd, hchain, -⟩ := scanFile_inv ls st h
  constructor
  · intro d hd
    have := hbnd d hd
    omega
  · exact hchain.imp (fun a b hab => hab.2)

/-- C4 witness: the range-validity conclusion at a concrete two-line
method scan. -/
theorem scanner_range_validity_witness :
    List.Chain' (fun a b => Handler.start a ≤ Handler.start b)
      (ScanState.handlers
        ⟨[⟨s2l "handleEventFoo", 0, 1⟩], none, 0⟩) :=
  (scanner_range_validity
    [s2l "  private async handleEventFoo(a) \x7b", s2l "  \x7d"]
    ⟨[⟨s2l "handleEventFoo", 0, 1⟩], none, 0⟩ (by decide)).2

/-- C10: every descriptor the Scanner records satisfies
`end ≥ start + 1`: a method whose braces open and balance entirely on its
declaration line is never closed or recorded, because the closing check
only runs on lines after the declaration line. -/
theorem scanner_end_after_start (ls : List (List Char)) (st : ScanState)
    (h : scanFile ls = some st) :
    ∀ d ∈ st.handlers, d.start + 1 ≤ d.endL := by
  obtain ⟨hbnd, -, -⟩ := scanFile_inv ls st h
  intro d hd
  exact (hbnd d hd).2.1

/-- C10 witness: the `end ≥ start + 1` bound at a concretely scanned
descriptor. -/
theorem scanner_end_after_start_witness :
    (Handler.mk (s2l "handleEventFoo") 0 1).start + 1
      ≤ (Handler.mk (s2l "handleEventFoo") 0 1).endL :=
  scanner_end_after_start
    [s2l "  private async handleEventFoo(a) \x7b", s2l "  \x7d"]
    ⟨[⟨s2l "handleEventFoo", 0, 1⟩], none, 0⟩ (by decide)
    (Handler.mk (s2l "handleEventFoo") 0 1) (by simp)

/-! ### Extractor lemmas -/

theorem extractedPieces_flatten (srcLines : List (List Char)) :
    ∀ hs : List Handler, (extractedPieces srcLines hs).flatten
      = (hs.map (fun h =>
          (pySlice srcLines h.start (h.endL + 1)).flatten ++ ['\n'])).flatten := by
  intro hs
  induction hs with
  | nil => rfl
  | cons h t ih =>
    rw [extractedPieces, List.map_cons, List.flatten_cons, List.flatten_append,
      List.flatten_append, ih]
    simp [s2l, List.append_assoc]

theorem parseInfoLine_some_name {l : List Char} {h : Handler}
    (heq : parseInfoLine l = some (some h)) : h.name ≠ exceptionName := by
  unfold parseInfoLine at heq
  by_cases ht : pyStrip l = []
  · rw [if_pos ht] at heq; simp at heq
  · rw [if_neg ht] at heq
    rcases hsp : splitCols (pyStrip l) with _ | ⟨nm, _ | ⟨st, _ | ⟨en, _ | ⟨x, r⟩⟩⟩⟩
      <;> rw [hsp] at heq <;> try simp at heq
    by_cases hnm : nm = exceptionName
    · rw [if_pos hnm] at heq; simp at heq
    · rw [if_neg hnm] at heq
      cases h1 : pyInt st <;> cases h2 : pyInt en <;> rw [h1, h2] at heq
        <;> try simp at heq
      obtain ⟨rfl⟩ := heq
      simpa using hnm

theorem parseHandlerInfo_no_exception :
    ∀ (listing : List (List Char)) (hs : List Handler),
      parseHandlerInfo listing = some hs → ∀ h ∈ hs, h.name ≠ exceptionName := by
  intro listing
  induction listing with
  | nil =>
    intro hs h
    rw [parseHandlerInfo] at h
    cases h
    intro d hd
    cases hd
  | cons l rest ih =>
    intro hs h
    rw [parseHandlerInfo] at h
    cases hpl : parseInfoLine l with
    | none => rw [hpl] at h; cases h
    | some o =>
      rw [hpl] at h
      cases hpr : parseHandlerInfo rest with
      | none => rw [hpr] at h; cases o <;> cases h
      | some hs0 =>
        rw [hpr] at h
        cases o with
        | none =>
          simp only at h
          cases h
          exact ih _ hpr
        | some h0 =>
          simp only at h
          cases h
          intro d hd
          rcases List.mem_cons.mp hd with rfl | hd2
          · exact parseInfoLine_some_name hpl
          · exact ih _ hpr d hd2

theorem extractorOutput_no_ph (srcLines : List (List Char)) (hs : List Handler)
    (t : List Char) (h0 : countOcc placeholderText t = 0) :
    replaceAll placeholderText [] t = t
    ∧ extractorOutput srcLines hs t
        = t ++ headerText ++ (extractedPieces srcLines hs).flatten ++ closeText
    ∧ extractorOutput srcLines hs t ≠ t := by
  have hid := countOcc_zero_id placeholderText [] t h0
  refine ⟨hid, ?_, ?_⟩
  · rw [extractorOutput, hid, List.append_assoc, List.append_assoc]
  · rw [extractorOutput, hid]
    intro heq
    have hlen := congrArg List.length heq
    simp only [List.length_append] at hlen
    have hpos : 0 < headerText.length := by decide
    omega

theorem extractorOutput_fresh (srcLines : List (List Char)) (hs : List Handler)
    (target : List Char) (hone : countOcc placeholderText target = 1) :
    ∃ pre suf, target = pre ++ placeholderText ++ suf ∧
      extractorOutput srcLines hs target
        = pre ++ suf ++ headerText
          ++ (hs.map (fun h =>
              (pySlice srcLines h.start (h.endL + 1)).flatten ++ ['\n'])).flatten
          ++ closeText := by
  obtain ⟨pre, suf, htgt, hq0, hrepl⟩ :=
    countOcc_one_decomp placeholderText [] target hone
  refine ⟨pre, suf, htgt, ?_⟩
  rw [extractorOutput, hrepl, extractedPieces_flatten]
  simp [List.append_assoc]

theorem extractedPieces_blank_sep (srcLines : List (List Char))
    (hs : List Handler)
    (hend : ∀ h ∈ hs, (pySlice srcLines h.start (h.endL + 1)).flatten ≠ []
      ∧ ((pySlice srcLines h.start (h.endL + 1)).flatten).getLast? = some '\n') :
    (extractedPieces srcLines hs).flatten
      = (hs.map (fun h =>
          ((pySlice srcLines h.start (h.endL + 1)).flatten).dropLast
            ++ ['\n', '\n'])).flatten := by
  rw [extractedPieces_flatten]
  have hmap : hs.map (fun h =>
      (pySlice srcLines h.start (h.endL + 1)).flatten ++ ['\n'])
    = hs.map (fun h =>
      ((pySlice srcLines h.start (h.endL + 1)).flatten).dropLast
        ++ ['\n', '\n']) := by
    apply List.map_congr_left
    intro h hm
    have hlast := (hend h hm).2
    have hb := List.dropLast_append_getLast? '\n' hlast
    conv_lhs => rw [← hb]
    simp
  rw [hmap]

/-- C6: given the source lines, the listing, and a target containing the
placeholder once, the Extractor appends all listed methods except the
`handleStateMessage` exception (which the listing parse already drops) to
the target in listing order, one block per descriptor, each block followed
by exactly one blank line, with the placeholder occurrence removed. -/
theorem extractor_appends_listed_handlers :
    (∀ (srcLines : List (List Char)) (hs : List Handler) (target : List Char),
      countOcc placeholderText target = 1 →
      ∃ pre suf, target = pre ++ placeholderText ++ suf ∧
        extractorOutput srcLines hs target
          = pre ++ suf ++ headerText
            ++ (hs.map (fun h =>
                (pySlice srcLines h.start (h.endL + 1)).flatten ++ ['\n'])).flatten
            ++ closeText)
    ∧ (∀ (listing : List (List Char)) (hs : List Handler),
        parseHandlerInfo listing = some hs → ∀ h ∈ hs, h.name ≠ exceptionName)
    ∧ (∀ (srcLines : List (List Char)) (hs : List Handler),
        (∀ h ∈ hs, (pySlice srcLines h.start (h.endL + 1)).flatten ≠ []
          ∧ ((pySlice srcLines h.start (h.endL + 1)).flatten).getLast? = some '\n') →
        (extractedPieces srcLines hs).flatten
          = (hs.map (fun h =>
              ((pySlice srcLines h.start (h.endL + 1)).flatten).dropLast
                ++ ['\n', '\n'])).flatten) := by
  exact ⟨extractorOutput_fresh, parseHandlerInfo_no_exception,
    extractedPieces_blank_sep⟩

/-- C6 witness: the blank-line separation conjunct evaluated on a one-line
source slice ending in a newline. -/
theorem extractor_appends_listed_handlers_witness :
    (extractedPieces [s2l "a\n"] [⟨s2l "h", 0, 0⟩]).flatten
      = (([⟨s2l "h", 0, 0⟩] : List Handler).map (fun h =>
          ((pySlice [s2l "a\n"] h.start (h.endL + 1)).flatten).dropLast
            ++ ['\n', '\n'])).flatten :=
  extractor_appends_listed_handlers.2.2 [s2l "a\n"] [⟨s2l "h", 0, 0⟩] (by decide)

/-- C1 counterexample: running the Extractor a second time on the
(now placeholder-free) output of a fresh run does not leave the target
unchanged — the script rewrites the file unconditionally, appending the
delimiter comment, the blocks, and the closing brace line again. -/
theorem extractor_second_run_changes_target :
    extractorOutput [s2l "a\n"] [⟨s2l "h", 0, 0⟩]
        (extractorOutput [s2l "a\n"] [⟨s2l "h", 0, 0⟩] placeholderText)
      ≠ extractorOutput [s2l "a\n"] [⟨s2l "h", 0, 0⟩] placeholderText := by
  decide

/-- C1 (amended): a fresh run (placeholder occurring once) removes the
placeholder and appends one block per listed non-exception descriptor in
listing order, blocks separated by exactly one blank line when the sliced
lines end in newlines; but a second run on the placeholder-free result is
NOT the identity: the replacement finds no match, and the script still
rewrites the target, appending the delimiter comment, all blocks, and the
closing brace line once more, so the target strictly grows. -/
theorem extractor_rerun_not_idempotent :
    (∀ (srcLines : List (List Char)) (hs : List Handler) (target : List Char),
      countOcc placeholderText target = 1 →
      ∃ pre suf, target = pre ++ placeholderText ++ suf ∧
        extractorOutput srcLines hs target
          = pre ++ suf ++ headerText
            ++ (hs.map (fun h =>
                (pySlice srcLines h.start (h.endL + 1)).flatten ++ ['\n'])).flatten
            ++ closeText)
    ∧ (∀ (srcLines : List (List Char)) (hs : List Handler),
        (∀ h ∈ hs, (pySlice srcLines h.start (h.endL + 1)).flatten ≠ []
          ∧ ((pySlice srcLines h.start (h.endL + 1)).flatten).getLast? = some '\n') →
        (extractedPieces srcLines hs).flatten
          = (hs.map (fun h =>
              ((pySlice srcLines h.start (h.endL + 1)).flatten).dropLast
                ++ ['\n', '\n'])).flatten)
    ∧ (∀ (srcLines : List (List Char)) (hs : List Handler) (t : List Char),
      countOcc placeholderText t = 0 →
      extractorOutput srcLines hs t
        = t ++ headerText ++ (extractedPieces srcLines hs).flatten ++ closeText
      ∧ extractorOutput srcLines hs t ≠ t) := by
  refine ⟨extractorOutput_fresh, extractedPieces_blank_sep, ?_⟩
  intro srcLines hs t h0
  exact ⟨(extractorOutput_no_ph srcLines hs t h0).2.1,
    (extractorOutput_no_ph srcLines hs t h0).2.2⟩

/-- C1 witness: the second-run append equation at a concrete
placeholder-free target. -/
theorem extractor_rerun_not_idempotent_witness :
    extractorOutput [s2l "a\n"] [⟨s2l "h", 0, 0⟩] (s2l "fresh")
      = s2l "fresh" ++ headerText
        ++ (extractedPieces [s2l "a\n"] [⟨s2l "h", 0, 0⟩]).flatten ++ closeText :=
  (extractor_rerun_not_idempotent.2.2 [s2l "a\n"] [⟨s2l "h", 0, 0⟩]
    (s2l "fresh") (by decide)).1

/-- C7 counterexample: with no placeholder in the target, the replacement
is a silent no-op, but the claim's "no change occurs to the target file"
is false — the Extractor still rewrites the file, appending the delimiter
comment, the extracted handlers, and a closing brace line. -/
theorem extractor_missing_placeholder_cex :
    extractorOutput [s2l "a\n"] [⟨s2l "h", 0, 0⟩] (s2l "x") ≠ s2l "x" := by
  decide

/-- C7 (amended): if the placeholder text is not found verbatim in the
target, the replacement step silently no-ops (that replacement leaves the
content unchanged, with no diagnostic), but the Extractor still
unconditionally rewrites the target, appending the delimiter comment, the
extracted blocks, and the closing brace line, so the target file does
change. -/
theorem extractor_missing_placeholder_still_writes :
    ∀ (srcLines : List (List Char)) (hs : List Handler) (t : List Char),
      countOcc placeholderText t = 0 →
      replaceAll placeholderText [] t = t
      ∧ extractorOutput srcLines hs t
          = t ++ headerText ++ (extractedPieces srcLines hs).flatten ++ closeText
      ∧ extractorOutput srcLines hs t ≠ t := by
  intro srcLines hs t h0
  exact extractorOutput_no_ph srcLines hs t h0

/-- C7 witness: the still-writes conclusion at a concrete marker-free
target. -/
theorem extractor_missing_placeholder_still_writes_witness :
    extractorOutput [s2l "b\n"] [⟨s2l "g", 0, 0⟩] (s2l "no marker")
      ≠ s2l "no marker" :=
  (extractor_missing_placeholder_still_writes [s2l "b\n"] [⟨s2l "g", 0, 0⟩]
    (s2l "no marker") (by decide)).2.2

/-! ### Rewriter substitution lemmas -/

theorem countMatches_zero_id (rep : List Char) :
    ∀ s : List Char, countMatches s = 0 → reSubAll rep s = s := by
  intro s
  generalize hn : s.length = n
  induction n using Nat.strong_induction_on generalizing s with
  | _ n ih =>
    match s with
    | [] => intro _; rfl
    | c :: rest =>
      intro h0
      cases hm : matchAt (c :: rest) with
      | some rem => rw [countMatches_cons_match hm] at h0; omega
      | none =>
        rw [countMatches_cons_nomatch hm] at h0
        have hlt : rest.length < n := by
          simp only [List.length_cons] at hn; omega
        rw [reSubAll_cons_nomatch hm, ih rest.length hlt rest rfl h0]

theorem countMatches_one_decomp (rep : List Char) :
    ∀ s : List Char, countMatches s = 1 →
      ∃ p m q, s = p ++ m ++ q ∧ matchAt (m ++ q) = some q
        ∧ countMatches q = 0 ∧ reSubAll rep s = p ++ rep ++ q := by
  intro s
  generalize hn : s.length = n
  induction n using Nat.strong_induction_on generalizing s with
  | _ n ih =>
    match s with
    | [] => intro h0; simp [countMatches, countMatchesF] at h0
    | c :: rest =>
      intro h1
      cases hm : matchAt (c :: rest) with
      | some rem =>
        rw [countMatches_cons_match hm] at h1
        have hq0 : countMatches rem = 0 := by omega
        obtain ⟨m, hm2⟩ := (matchAt_suffix hm).1
        refine ⟨[], m, rem, by simp [hm2], by rw [hm2]; exact hm, hq0, ?_⟩
        rw [reSubAll_cons_match hm, countMatches_zero_id rep rem hq0]
        simp
      | none =>
        rw [countMatches_cons_nomatch hm] at h1
        have hlt : rest.length < n := by
          simp only [List.length_cons] at hn; omega
        obtain ⟨p, m, q, hsp, hmq, hq0, hrw⟩ := ih rest.length hlt rest rfl h1
        refine ⟨c :: p, m, q, by simp [hsp], hmq, hq0, ?_⟩
        rw [reSubAll_cons_nomatch hm, hrw]
        simp

/-- C5 counterexample: each literal substitution in the Rewriter replaces
every occurrence of its anchor, not exactly one: on a content containing
the import anchor twice, the new StateRouter import line is inserted
twice. -/
theorem rewriter_duplicate_anchor_cex :
    countOcc
        (s2l "import \x7b StateRouter \x7d from \x27../routing/StateRouter.js\x27;")
        (rewriteImports (importAnchor ++ s2l "\n" ++ importAnchor)) = 2 := by
  decide

/-- C5 (amended): each of the four textual insertions of the Rewriter
replaces once per occurrence of its anchor — so it occurs exactly once
when the anchor occurs exactly once, and occurs only when the anchor (or,
for the method-body replacement, the pattern) is present; an absent
anchor leaves that substitution a byte-for-byte no-op, and the combined
pipeline leaves the file unchanged when nothing matches, while the
script's closing report is printed regardless of the content. -/
theorem rewriter_anchor_substitutions :
    (∀ c : List Char, countOcc importAnchor c = 0 → rewriteImports c = c)
    ∧ (∀ c : List Char, countOcc importAnchor c = 1 →
        ∃ p q, c = p ++ importAnchor ++ q ∧ rewriteImports c = p ++ importRepl ++ q)
    ∧ (∀ c : List Char, countOcc fieldAnchor c = 0 → rewriteField c = c)
    ∧ (∀ c : List Char, countOcc fieldAnchor c = 1 →
        ∃ p q, c = p ++ fieldAnchor ++ q ∧ rewriteField c = p ++ fieldRepl ++ q)
    ∧ (∀ c : List Char, countOcc initAnchor c = 0 → rewriteInitBlock c = c)
    ∧ (∀ c : List Char, countOcc initAnchor c = 1 →
        ∃ p q, c = p ++ initAnchor ++ q ∧ rewriteInitBlock c = p ++ initRepl ++ q)
    ∧ (∀ c : List Char, countMatches c = 0 → rewriteHandleState c = c)
    ∧ (∀ c : List Char, countMatches c = 1 →
        ∃ p m q, c = p ++ m ++ q ∧ matchAt (m ++ q) = some q
          ∧ rewriteHandleState c = p ++ newHandleState ++ q)
    ∧ (∀ c : List Char, countOcc importAnchor c = 0 → countOcc fieldAnchor c = 0 →
        countOcc initAnchor c = 0 → countMatches c = 0 → updateContent c = c)
    ∧ (∀ (src1 src2 : List (List Char)) (hs : List Handler),
        (rewriterRun src1 hs).2 = (rewriterRun src2 hs).2) := by
  refine ⟨?_, ?_, ?_, ?_, ?_, ?_, ?_, ?_, ?_, ?_⟩
  · intro c h0; exact countOcc_zero_id importAnchor importRepl c h0
  · intro c h1
    obtain ⟨p, q, hc, -, hr⟩ := countOcc_one_decomp importAnchor importRepl c h1
    exact ⟨p, q, hc, hr⟩
  · intro c h0; exact countOcc_zero_id fieldAnchor fieldRepl c h0
  · intro c h1
    obtain ⟨p, q, hc, -, hr⟩ := countOcc_one_decomp fieldAnchor fieldRepl c h1
    exact ⟨p, q, hc, hr⟩
  · intro c h0; exact countOcc_zero_id initAnchor initRepl c h0
  · intro c h1
    obtain ⟨p, q, hc, -, hr⟩ := countOcc_one_decomp initAnchor initRepl c h1
    exact ⟨p, q, hc, hr⟩
  · intro c h0; exact countMatches_zero_id newHandleState c h0
  · intro c h1
    obtain ⟨p, m, q, hc, hmq, -, hr⟩ :=
      countMatches_one_decomp newHandleState c h1
    exact ⟨p, m, q, hc, hmq, hr⟩
  · intro c h1 h2 h3 h4
    unfold updateContent rewriteImports rewriteField rewriteInitBlock
      rewriteHandleState
    rw [countOcc_zero_id importAnchor importRepl c h1,
      countOcc_zero_id fieldAnchor fieldRepl c h2,
      countOcc_zero_id initAnchor initRepl c h3,
      countMatches_zero_id newHandleState c h4]
  · intro src1 src2 hs; rfl

/-- C5 witness: a content with no anchors and no pattern match passes
through the whole substitution pipeline byte-for-byte unchanged. -/
theorem rewriter_anchor_substitutions_witness :
    updateContent (s2l "nothing to see") = s2l "nothing to see" :=
  rewriter_anchor_substitutions.2.2.2.2.2.2.2.2.1 (s2l "nothing to see")
    (by decide) (by decide) (by decide) (by decide)

end Refactor
